import Mathlib

/-!
Verification of the in-memory translation store of FKSE/translator-app
(src/translator.go) against its specification.

The Go code is shallowly embedded as follows.

* Go maps with string keys (`map[string]Translation`, `map[string][]byte`)
  become association lists `List (String × _)`; `alookup`, `aset` and
  `aremove` model Go map read, write and delete.
* Go maps are reference types: `Translator.languages` maps a language code
  to a map *reference*.  We model this with an explicit heap: `langs` maps
  a code to a `Nat` reference and `heap : Nat → Language` holds the map
  contents.  `AddLanguage` copies the reference only, exactly as
  `t.languages[lang] = translations` does in Go, so aliasing between
  language codes is representable.
* Methods that mutate the receiver return a pair (result, new store).
* `os.Remove` in `RemoveLanguage` is external I/O; its outcome is passed in
  as a parameter `fsRemove` (`none` = success, `some msg` = I/O error).
* Nested JSON objects whose leaves are strings (the domain of the claims
  about `extractKeys` and `insert`) are the mutual inductive `JVal`/`JObj`;
  `JObj` is the embedding of Go's `map[string]interface{}` restricted to
  string and object values (other JSON value kinds are ignored by
  `extractKeys` and never produced by `insert`).
* Go's `insert` has no error return; on a leaf/container collision it
  either panics (failed type assertion `c.(map[string]interface{})`) or
  silently overwrites.  The model returns `Option`; `none` models the
  runtime panic.  `insert` walks the key characters, which implements
  `strings.Contains(key, ".")` and `strings.SplitN(key, ".", 2)` fused
  into one pass: the walk stops at the first dot exactly as SplitN does.
-/

namespace TrApp

/-- Lookup in an association list; models reading a Go map (`m[k]`). -/
def alookup {κ α : Type} [DecidableEq κ] (k : κ) : List (κ × α) → Option α
  | [] => none
  | p :: rest => if p.1 = k then some p.2 else alookup k rest

/-- Write to an association list; models a Go map assignment (`m[k] = v`):
updates in place if the key is present, otherwise appends a new entry. -/
def aset {κ α : Type} [DecidableEq κ] (k : κ) (v : α) : List (κ × α) → List (κ × α)
  | [] => [(k, v)]
  | p :: rest => if p.1 = k then (k, v) :: rest else p :: aset k v rest

/-- Delete from an association list; models Go's `delete(m, k)`. -/
def aremove {κ α : Type} [DecidableEq κ] (k : κ) : List (κ × α) → List (κ × α)
  | [] => []
  | p :: rest => if p.1 = k then aremove k rest else p :: aremove k rest

/-- Translation from src/translator.go: `Key` (json tag "id") and `Template`. -/
structure Translation where
  key : String
  template : String
deriving Repr, DecidableEq

/-- Language from src/translator.go: `type Language map[string]Translation`. -/
abbrev Language := List (String × Translation)

/-- Error kinds surfaced by store operations: `ErrLanguageNotFound`
("Language is not loaded") and pass-through I/O errors. -/
inductive TrError where
  | languageNotFound
  | ioError (msg : String)
deriving Repr, DecidableEq

/-- Translator from src/translator.go.  `languages` is split into `langs`
(code to map reference) and `heap` (reference to map contents) because Go
maps are reference values; `raw` is `languagesRaw`.  The mutexes guard the
two maps and have no observable effect on the sequential semantics. -/
structure Translator where
  directory : String
  langs : List (String × Nat)
  heap : Nat → Language
  raw : List (String × String)

/-- Heap update at one reference. -/
def hup (h : Nat → Language) (r : Nat) (v : Language) : Nat → Language :=
  fun n => if n = r then v else h n

/-- Get returns the value of a key (src/translator.go lines 90-98):
template if the language is loaded and has the key, the key itself
otherwise. -/
def Translator.get (t : Translator) (key lang : String) : String :=
  match alookup lang t.langs with
  | some r =>
    match alookup key (t.heap r) with
    | some value => value.template
    | none => key
  | none => key

/-- Set the value for a key (src/translator.go lines 101-113).  Go reads
`entry := trans[key]` (zero value `Translation{}` when absent), overwrites
only `entry.Template`, and stores it back. -/
def Translator.set (t : Translator) (key value lang : String) :
    Except TrError Unit × Translator :=
  match alookup lang t.langs with
  | some r =>
    let trans := t.heap r
    let entry := (alookup key trans).getD { key := "", template := "" }
    (Except.ok (),
      { t with heap := hup t.heap r (aset key { entry with template := value } trans) })
  | none => (Except.error TrError.languageNotFound, t)

/-- Remove a key (src/translator.go lines 125-134). -/
def Translator.remove (t : Translator) (key lang : String) :
    Except TrError Unit × Translator :=
  match alookup lang t.langs with
  | some r =>
    (Except.ok (), { t with heap := hup t.heap r (aremove key (t.heap r)) })
  | none => (Except.error TrError.languageNotFound, t)

/-- Language descriptor (src/translator.go lines 151-163).  Go returns
`{"id": lang, "translations": [...]}`; the model returns the pair of the
id and the list of translation values. -/
def Translator.language (t : Translator) (lang : String) :
    Except TrError (String × List Translation) × Translator :=
  match alookup lang t.langs with
  | some r =>
    (Except.ok (lang, (t.heap r).map (fun p => p.2)), t)
  | none => (Except.error TrError.languageNotFound, t)

/-- AddLanguage (src/translator.go lines 165-173).  Go assigns
`t.languages[lang] = translations`, i.e. the clone shares the *same map
reference* with the base; the model copies the reference `r` only. -/
def Translator.addLanguage (t : Translator) (lang base : String) :
    Except TrError (String × List Translation) × Translator :=
  match alookup base t.langs with
  | some r =>
    let t' := { t with langs := aset lang r t.langs }
    t'.language lang
  | none => (Except.error TrError.languageNotFound, t)

/-- RemoveLanguage (src/translator.go lines 175-189): deletes the language
map and the raw cache, then removes the backing file; `fsRemove` is the
outcome of `os.Remove` (external I/O). -/
def Translator.removeLanguage (t : Translator) (lang : String)
    (fsRemove : Option String) : Except TrError Unit × Translator :=
  match alookup lang t.langs with
  | some _ =>
    let t' := { t with langs := aremove lang t.langs, raw := aremove lang t.raw }
    (match fsRemove with
     | none => Except.ok ()
     | some e => Except.error (TrError.ioError e), t')
  | none => (Except.error TrError.languageNotFound, t)

/-- Orphan-removal body of Sync for one non-base language (src/translator.go
lines 202-208): delete from the map at `r` every key absent from the base
map.  The base map is read live from the current heap. -/
def removeOrphans (bref r : Nat) (h : Nat → Language) : Nat → Language :=
  hup h r ((h r).filter (fun p => (alookup p.1 (h bref)).isSome))

/-- Phase 1 of Sync (src/translator.go lines 199-211): iterate over all
languages, skipping the base code, removing orphan keys. -/
def phase1 (bref : Nat) (base : String) :
    List (String × Nat) → (Nat → Language) → Nat → Language
  | [], h => h
  | (code, r) :: rest, h =>
    if code = base then phase1 bref base rest h
    else phase1 bref base rest (removeOrphans bref r h)

/-- Inner loop of phase 2 of Sync for one base key (src/translator.go lines
214-223): insert the base translation into every non-base language missing
the key. -/
def fillKey (key : String) (tr : Translation) (base : String) :
    List (String × Nat) → (Nat → Language) → Nat → Language
  | [], h => h
  | (code, r) :: rest, h =>
    if code = base then fillKey key tr base rest h
    else if (alookup key (h r)).isSome then fillKey key tr base rest h
    else fillKey key tr base rest (hup h r (aset key tr (h r)))

/-- Phase 2 of Sync (src/translator.go lines 213-224): iterate over the
base language's entries, filling each into all other languages. -/
def phase2 (base : String) (langsL : List (String × Nat)) :
    List (String × Translation) → (Nat → Language) → Nat → Language
  | [], h => h
  | (key, tr) :: rest, h => phase2 base langsL rest (fillKey key tr base langsL h)

/-- Sync (src/translator.go lines 192-227). -/
def Translator.sync (t : Translator) (base : String) (orphanRemoval : Bool) :
    Except TrError Unit × Translator :=
  match alookup base t.langs with
  | some bref =>
    let h1 := if orphanRemoval then phase1 bref base t.langs t.heap else t.heap
    (Except.ok (), { t with heap := phase2 base t.langs (h1 bref) h1 })
  | none => (Except.error TrError.languageNotFound, t)

/-- Sync's heap transformation with the iteration orders made explicit:
`lo1` is the language iteration order of phase 1, `lo2` that of phase 2,
and `ko` the key iteration order over the base language in phase 2.  Go
map iteration order is unspecified; `Translator.sync` instantiates all
three with the stored lists. -/
def syncGenHeap (base : String) (bref : Nat) (lo1 lo2 : List (String × Nat))
    (ko : Language) (orphanRemoval : Bool) (h : Nat → Language) : Nat → Language :=
  let h1 := if orphanRemoval then phase1 bref base lo1 h else h
  phase2 base lo2 ko h1

/-- A heap reference `r` is the map of at least one loaded non-base
language code in `l`. -/
def refNB (base : String) (r : Nat) (l : List (String × Nat)) : Prop :=
  ∃ p ∈ l, p.1 ≠ base ∧ p.2 = r

/-- First-defined choice on options (used to state Sync's net effect). -/
def ofirst {α : Type} : Option α → Option α → Option α
  | some v, _ => some v
  | none, b => b

mutual
/-- JSON value restricted to the string-leaf trees the claims quantify
over: a Go `interface{}` holding either a `string` or a
`map[string]interface{}`. -/
inductive JVal where
  | str : String → JVal
  | obj : JObj → JVal
deriving Repr, DecidableEq
/-- Embedding of Go's `map[string]interface{}` as an entry sequence. -/
inductive JObj where
  | nil : JObj
  | cons : String → JVal → JObj → JObj
deriving Repr, DecidableEq
end

/-- Read of a `map[string]interface{}` (`target[k]`). -/
def objLookup (k : String) : JObj → Option JVal
  | JObj.nil => none
  | JObj.cons k' v rest => if k' = k then some v else objLookup k rest

/-- Write to a `map[string]interface{}` (`target[k] = v`). -/
def objSet (k : String) (v : JVal) : JObj → JObj
  | JObj.nil => JObj.cons k v JObj.nil
  | JObj.cons k' v' rest =>
    if k' = k then JObj.cons k v rest else JObj.cons k' v' (objSet k v rest)

/-- Concatenation of entry sequences. -/
def objApp : JObj → JObj → JObj
  | JObj.nil, b => b
  | JObj.cons k v rest, b => JObj.cons k v (objApp rest b)

/-- Worker for `insert` (src/translator.go lines 315-332).  It walks the
key's characters up to the first dot, accumulating the first path segment
in `hacc`; this fuses `strings.Contains(key, ".")` with
`strings.SplitN(key, ".", 2)`.  Reaching the end without a dot is Go's
no-dot branch (`target[key] = value`).  At the first dot, `hacc` is
`keyParts[0]` and the remaining characters are `keyParts[1]`; the walk
then descends into the child object, creating it when absent.  `none`
models the runtime panic of the failed type assertion
`c.(map[string]interface{})` when the existing child is a string leaf. -/
def insertA : List Char → List Char → String → JObj → Option JObj
  | [], hacc, value, target => some (objSet (String.mk hacc) (JVal.str value) target)
  | c :: rest, hacc, value, target =>
    if c = '.' then
      match objLookup (String.mk hacc) target with
      | some (JVal.str _) => none
      | some (JVal.obj child) =>
        (insertA rest [] value child).map (fun c' => objSet (String.mk hacc) (JVal.obj c') target)
      | none =>
        (insertA rest [] value JObj.nil).map (fun c' => objSet (String.mk hacc) (JVal.obj c') target)
    else insertA rest (hacc ++ [c]) value target

/-- insert from src/translator.go lines 315-332. -/
def insert (key value : String) (target : JObj) : Option JObj :=
  insertA key.data [] value target

/-- Re-nesting loop of syncRaw (src/translator.go lines 293-296) over
plain (key, value) pairs:
`for key, translation := range language { insert(key, translation.Template, target) }`.
`none` propagates the panic of a failing `insert`. -/
def unflatPairs : List (String × String) → JObj → Option JObj
  | [], target => some target
  | (k, v) :: rest, target =>
    match insert k v target with
    | some target' => unflatPairs rest target'
    | none => none

/-- Re-nesting loop of syncRaw applied to a language's entries: each
entry's `Template` is inserted under its map key. -/
def unflattenEntries (es : List (String × Translation)) (target : JObj) : Option JObj :=
  unflatPairs (es.map (fun e => (e.1, e.2.template))) target

/-- Dot-append step of extractKeys (src/translator.go lines 271-273):
`if prefix != "" { prefix += "." }`. -/
def dotPre (p : String) : String := if p = "" then p else p ++ "."

/-- Merge of a recursive extractKeys result into the accumulated key map
(src/translator.go lines 282-285): `for sk, vk := range sub: keys[sk] = vk`. -/
def mergeT (sub acc : List (String × Translation)) : List (String × Translation) :=
  sub.foldl (fun a p => aset p.1 p.2 a) acc

/-- Body of extractKeys (src/translator.go lines 270-289) with the
already-dotted pre computed by the caller and the accumulated `keys`
map passed explicitly.  String leaves add `pre + k`; object values
recurse with the extended pre (re-dotted by `dotPre`, matching the
`prefix += "."` at the entry of the Go function) and are merged in. -/
def extractEntries (pre : String) : JObj → List (String × Translation) → List (String × Translation)
  | JObj.nil, acc => acc
  | JObj.cons k (JVal.str s) rest, acc =>
    extractEntries pre rest (aset (pre ++ k) { key := pre ++ k, template := s } acc)
  | JObj.cons k (JVal.obj sub) rest, acc =>
    extractEntries pre rest (mergeT (extractEntries (dotPre (pre ++ k)) sub []) acc)

/-- extractKeys from src/translator.go lines 270-289 (the receiver is
unused in Go, so the model is a plain function). -/
def extractKeys (pre : String) (m : JObj) : List (String × Translation) :=
  extractEntries (dotPre pre) m []

/-- Key-to-leaf-value skeleton of the flattening, used to specify
`extractEntries`: same keys in the same order, values are the leaf
strings. -/
def flatSpec : JObj → List (String × String)
  | JObj.nil => []
  | JObj.cons k (JVal.str s) rest => (k, s) :: flatSpec rest
  | JObj.cons k (JVal.obj sub) rest =>
    (flatSpec sub).map (fun p => (k ++ "." ++ p.1, p.2)) ++ flatSpec rest

/-- Valid dot-path segment: non-empty and dot-free. -/
def goodKey (k : String) : Bool := decide (k ≠ "" ∧ '.' ∉ k.data)

/-- Keys of an entry sequence. -/
def objKeys : JObj → List String
  | JObj.nil => []
  | JObj.cons k _ rest => k :: objKeys rest

/-- Well-formed string-leaf tree: at every level the keys are valid
dot-path segments without duplicates, and every nested object is
non-empty. -/
def wfEntries : JObj → Bool
  | JObj.nil => true
  | JObj.cons k (JVal.str _) rest =>
    goodKey k && decide (k ∉ objKeys rest) && wfEntries rest
  | JObj.cons k (JVal.obj sub) rest =>
    goodKey k && decide (k ∉ objKeys rest) && decide (sub ≠ JObj.nil) &&
      wfEntries sub && wfEntries rest

/-- Example store: language "en" at reference 0 with one key. -/
def tEn : Translator where
  directory := "lang"
  langs := [("en", 0)]
  heap := fun n => if n = 0 then [("A", { key := "A", template := "hello" })] else []
  raw := []

/-- Example store: "en" at reference 0 and "de" at reference 1; "de" has a
translated shared key and an orphan key "B". -/
def tEnDe : Translator where
  directory := "lang"
  langs := [("en", 0), ("de", 1)]
  heap := fun n =>
    if n = 0 then [("A", { key := "A", template := "hello" })]
    else if n = 1 then
      [("A", { key := "A", template := "hallo" }), ("B", { key := "B", template := "x" })]
    else []
  raw := []

/-- Example well-formed tree: a nested object and a top-level leaf. -/
def mEx : JObj :=
  JObj.cons "a"
    (JVal.obj (JObj.cons "b" (JVal.str "x") (JObj.cons "c" (JVal.str "y") JObj.nil)))
    (JObj.cons "d" (JVal.str "z") JObj.nil)

theorem alookup_aset {κ α : Type} [DecidableEq κ] (k k0 : κ) (v : α) (l : List (κ × α)) :
    alookup k (aset k0 v l) = if k0 = k then some v else alookup k l := by
  induction l with
  | nil => simp [aset, alookup]
  | cons p rest ih =>
    by_cases h : p.1 = k0
    · simp only [aset, if_pos h, alookup]
      by_cases hk : k0 = k
      · simp [hk]
      · rw [if_neg hk, if_neg hk, if_neg (h ▸ hk)]
    · simp only [aset, if_neg h, alookup, ih]
      by_cases hk : p.1 = k
      · rw [if_pos hk, if_neg (fun e => h ((e.trans hk.symm).symm) : ¬ k0 = k), if_pos hk]
      · rw [if_neg hk, if_neg hk]

theorem alookup_aremove {κ α : Type} [DecidableEq κ] (k k0 : κ) (l : List (κ × α)) :
    alookup k (aremove k0 l) = if k0 = k then none else alookup k l := by
  induction l with
  | nil => simp [aremove, alookup]
  | cons p rest ih =>
    by_cases h : p.1 = k0
    · simp only [aremove, if_pos h, ih, alookup]
      by_cases hk : k0 = k
      · simp [hk]
      · rw [if_neg hk, if_neg hk, if_neg (h ▸ hk)]
    · simp only [aremove, if_neg h, alookup, ih]
      by_cases hk : p.1 = k
      · rw [if_pos hk, if_neg (fun e => h ((e.trans hk.symm).symm) : ¬ k0 = k), if_pos hk]
      · rw [if_neg hk, if_neg hk]

theorem alookup_mem {κ α : Type} [DecidableEq κ] {k : κ} {v : α} {l : List (κ × α)}
    (h : alookup k l = some v) : (k, v) ∈ l := by
  induction l with
  | nil => exact absurd h (by simp [alookup])
  | cons p rest ih =>
    by_cases hp : p.1 = k
    · simp only [alookup, if_pos hp] at h
      obtain rfl : p.2 = v := Option.some.inj h
      exact hp ▸ List.mem_cons_self p rest
    · exact List.mem_cons_of_mem p (ih (by simpa [alookup, if_neg hp] using h))

theorem alookup_isSome_of_mem {κ α : Type} [DecidableEq κ] {k : κ} {v : α}
    {l : List (κ × α)} (h : (k, v) ∈ l) : (alookup k l).isSome = true := by
  induction l with
  | nil => cases h
  | cons p rest ih =>
    rcases List.mem_cons.mp h with h | h
    · simp [alookup, ← h]
    · by_cases hp : p.1 = k
      · simp [alookup, hp]
      · simpa [alookup, hp] using ih h

theorem alookup_none_iff {κ α : Type} [DecidableEq κ] (k : κ) (l : List (κ × α)) :
    alookup k l = none ↔ k ∉ l.map Prod.fst := by
  induction l with
  | nil => simp [alookup]
  | cons p rest ih =>
    by_cases hp : p.1 = k
    · simp [alookup, hp]
    · simp [alookup, hp, ih, Ne.symm hp]

theorem alookup_filter {κ α : Type} [DecidableEq κ] (q : κ → Bool) (k : κ)
    (l : List (κ × α)) :
    alookup k (l.filter (fun p => q p.1)) = if q k then alookup k l else none := by
  induction l with
  | nil => simp [alookup]
  | cons p rest ih =>
    by_cases hp : p.1 = k
    · subst hp
      by_cases hq : q p.1
      · simp [List.filter_cons, hq, alookup]
      · simp [List.filter_cons, hq, alookup, ih]
    · by_cases hq : q p.1
      · simpa [List.filter_cons, hq, alookup, hp] using ih
      · simpa [List.filter_cons, hq, alookup, hp] using ih

theorem filt_self {κ α : Type} [DecidableEq κ] (l : List (κ × α)) :
    (l.filter (fun p => (alookup p.1 l).isSome)) = l :=
  List.filter_eq_self.mpr (fun p hp => @alookup_isSome_of_mem _ _ _ p.1 p.2 _ hp)

theorem hup_same (h : Nat → Language) (r : Nat) (v : Language) : hup h r v r = v := by
  simp [hup]

theorem hup_other (h : Nat → Language) (r : Nat) (v : Language) (n : Nat) (hn : n ≠ r) :
    hup h r v n = h n := by
  simp [hup, hn]

/-- C1: the claim says that after AddLanguage(new, base) the two languages
are independent copies, so a Set on the clone must leave the base language
unchanged.  The code assigns the same map reference to both codes
(src/translator.go line 168), so a Set on the clone mutates the base: in
the store with en = [A -> hello], AddLanguage("fr","en") followed by
Set("A","hallo","fr") changes Get("A","en") from "hello" to "hallo". -/
theorem C1_addLanguage_aliasing :
    tEn.get "A" "en" = "hello" ∧
    ((((tEn.addLanguage "fr" "en").2).set "A" "hallo" "fr").2).get "A" "en" = "hallo" := by
  constructor
  · rfl
  · rfl

/-- C5 counterexample: a successful Set on a fresh key stores the Go zero
value in the identity field, so the stored key field is "" and not the
flat key "A" as the claim requires. -/
theorem C5_counterexample :
    (({ tEn with heap := fun _ => [] } : Translator).set "A" "v" "en").1 = Except.ok () ∧
    alookup "A" ((({ tEn with heap := fun _ => [] } : Translator).set "A" "v" "en").2.heap 0)
      = some { key := "", template := "v" } ∧
    ({ key := "", template := "v" } : Translation).key ≠ "A" := by
  refine ⟨rfl, by decide, by decide⟩

/-- C5 (amended): a successful Set(key, value, lang) leaves the language's
entry for key with template = value; the identity field is the previous
entry's identity field when the key already existed, and the empty string
(Go zero value) when the key is freshly inserted.  All other keys, all
other heap cells, the language table and the raw cache are unchanged. -/
theorem C5_set_spec (t : Translator) (key value lang : String) (r : Nat)
    (hl : alookup lang t.langs = some r) :
    (t.set key value lang).1 = Except.ok () ∧
    alookup key ((t.set key value lang).2.heap r)
      = some { key := ((alookup key (t.heap r)).getD { key := "", template := "" }).key,
               template := value } ∧
    (∀ k', k' ≠ key → alookup k' ((t.set key value lang).2.heap r) = alookup k' (t.heap r)) ∧
    (∀ r', r' ≠ r → (t.set key value lang).2.heap r' = t.heap r') ∧
    (t.set key value lang).2.langs = t.langs ∧
    (t.set key value lang).2.raw = t.raw := by
  refine ⟨by simp [Translator.set, hl], ?_, ?_, ?_, ?_, ?_⟩
  · simp [Translator.set, hl, hup_same, alookup_aset]
  · intro k' hk'
    simp [Translator.set, hl, hup_same, alookup_aset, Ne.symm hk']
  · intro r' hr'
    simp [Translator.set, hl, hup_other _ _ _ _ hr']
  · simp [Translator.set, hl]
  · simp [Translator.set, hl]

/-- C5 witness: the amended Set specification evaluated on the example
store at the existing key "A". -/
theorem C5_witness :
    alookup "en" tEn.langs = some 0 ∧
    ((tEn.set "A" "v" "en").1 = Except.ok () ∧
     alookup "A" ((tEn.set "A" "v" "en").2.heap 0)
       = some { key := ((alookup "A" (tEn.heap 0)).getD { key := "", template := "" }).key,
                template := "v" } ∧
     (∀ k', k' ≠ "A" → alookup k' ((tEn.set "A" "v" "en").2.heap 0) = alookup k' (tEn.heap 0)) ∧
     (∀ r', r' ≠ 0 → (tEn.set "A" "v" "en").2.heap r' = tEn.heap r') ∧
     (tEn.set "A" "v" "en").2.langs = tEn.langs ∧
     (tEn.set "A" "v" "en").2.raw = tEn.raw) :=
  ⟨rfl, C5_set_spec tEn "A" "v" "en" 0 rfl⟩

/-- C6: Get is total (its type is String, no error channel); it returns
the stored template when the language is loaded and holds the key, and
returns the key itself when the language is not loaded or the key is
absent. -/
theorem C6_get_total (t : Translator) (key lang : String) :
    (∀ r tr, alookup lang t.langs = some r → alookup key (t.heap r) = some tr →
       t.get key lang = tr.template) ∧
    (alookup lang t.langs = none → t.get key lang = key) ∧
    (∀ r, alookup lang t.langs = some r → alookup key (t.heap r) = none →
       t.get key lang = key) := by
  refine ⟨?_, ?_, ?_⟩
  · intro r tr hr htr
    simp [Translator.get, hr, htr]
  · intro hr
    simp [Translator.get, hr]
  · intro r hr htr
    simp [Translator.get, hr, htr]

/-- C6 witness: Get evaluated on the example store in all three cases. -/
theorem C6_witness :
    tEn.get "A" "en" = "hello" ∧ tEn.get "A" "xx" = "A" ∧ tEn.get "Z" "en" = "Z" :=
  ⟨(C6_get_total tEn "A" "en").1 0 { key := "A", template := "hello" } rfl rfl,
   (C6_get_total tEn "A" "xx").2.1 rfl,
   (C6_get_total tEn "Z" "en").2.2 0 rfl rfl⟩

/-- C8: each of Set, Remove, Language, AddLanguage, RemoveLanguage and
Sync returns the LanguageNotFound error exactly when the language code it
references (the target code, or the base code for AddLanguage and Sync)
is not loaded. -/
theorem C8_language_not_found_iff (t : Translator) (key value lang base : String)
    (orphanRemoval : Bool) (fsRemove : Option String) :
    ((t.set key value lang).1 = Except.error TrError.languageNotFound ↔
      alookup lang t.langs = none) ∧
    ((t.remove key lang).1 = Except.error TrError.languageNotFound ↔
      alookup lang t.langs = none) ∧
    ((t.language lang).1 = Except.error TrError.languageNotFound ↔
      alookup lang t.langs = none) ∧
    ((t.addLanguage lang base).1 = Except.error TrError.languageNotFound ↔
      alookup base t.langs = none) ∧
    ((t.removeLanguage lang fsRemove).1 = Except.error TrError.languageNotFound ↔
      alookup lang t.langs = none) ∧
    ((t.sync base orphanRemoval).1 = Except.error TrError.languageNotFound ↔
      alookup base t.langs = none) := by
  refine ⟨?_, ?_, ?_, ?_, ?_, ?_⟩
  · cases hl : alookup lang t.langs <;> simp [Translator.set, hl]
  · cases hl : alookup lang t.langs <;> simp [Translator.remove, hl]
  · cases hl : alookup lang t.langs <;> simp [Translator.language, hl]
  · cases hl : alookup base t.langs <;>
      simp [Translator.addLanguage, Translator.language, hl, alookup_aset]
  · cases hl : alookup lang t.langs with
    | none => simp [Translator.removeLanguage, hl]
    | some r => cases fsRemove <;> simp [Translator.removeLanguage, hl]
  · cases hl : alookup base t.langs <;> simp [Translator.sync, hl]

/-- C8 witness: both directions of the equivalence on the example store:
an unloaded code gives LanguageNotFound, a loaded base does not. -/
theorem C8_witness :
    (tEn.set "A" "v" "xx").1 = Except.error TrError.languageNotFound ∧
    ¬ (tEn.sync "en" true).1 = Except.error TrError.languageNotFound :=
  ⟨(C8_language_not_found_iff tEn "A" "v" "xx" "en" true none).1.mpr rfl,
   fun h => absurd ((C8_language_not_found_iff tEn "A" "v" "xx" "en" true none).2.2.2.2.2.mp h)
     (by decide)⟩

/-- C9: whenever Set, Remove, Language, AddLanguage, RemoveLanguage or
Sync returns LanguageNotFound, the returned store is exactly the input
store: the not-found check precedes every mutation of the language table,
the heaps and the raw cache. -/
theorem C9_not_found_no_mutation (t : Translator) (key value lang base : String)
    (orphanRemoval : Bool) (fsRemove : Option String) :
    ((t.set key value lang).1 = Except.error TrError.languageNotFound →
       (t.set key value lang).2 = t) ∧
    ((t.remove key lang).1 = Except.error TrError.languageNotFound →
       (t.remove key lang).2 = t) ∧
    ((t.language lang).1 = Except.error TrError.languageNotFound →
       (t.language lang).2 = t) ∧
    ((t.addLanguage lang base).1 = Except.error TrError.languageNotFound →
       (t.addLanguage lang base).2 = t) ∧
    ((t.removeLanguage lang fsRemove).1 = Except.error TrError.languageNotFound →
       (t.removeLanguage lang fsRemove).2 = t) ∧
    ((t.sync base orphanRemoval).1 = Except.error TrError.languageNotFound →
       (t.sync base orphanRemoval).2 = t) := by
  refine ⟨?_, ?_, ?_, ?_, ?_, ?_⟩
  · cases hl : alookup lang t.langs <;> simp [Translator.set, hl]
  · cases hl : alookup lang t.langs <;> simp [Translator.remove, hl]
  · cases hl : alookup lang t.langs <;> simp [Translator.language, hl]
  · cases hl : alookup base t.langs <;>
      simp [Translator.addLanguage, Translator.language, hl, alookup_aset]
  · cases hl : alookup lang t.langs with
    | none => simp [Translator.removeLanguage, hl]
    | some r => cases fsRemove <;> simp [Translator.removeLanguage, hl]
  · cases hl : alookup base t.langs <;> simp [Translator.sync, hl]

/-- C9 witness: error-returning calls on the example store leave it
untouched. -/
theorem C9_witness :
    (tEn.set "A" "v" "xx").2 = tEn ∧ (tEn.remove "A" "xx").2 = tEn ∧
    (tEn.sync "xx" false).2 = tEn :=
  ⟨(C9_not_found_no_mutation tEn "A" "v" "xx" "xx" false none).1 rfl,
   (C9_not_found_no_mutation tEn "A" "v" "xx" "xx" false none).2.1 rfl,
   (C9_not_found_no_mutation tEn "A" "v" "xx" "xx" false none).2.2.2.2.2 rfl⟩

theorem filter_filter_self {α : Type} (q : α → Bool) (l : List α) :
    (l.filter q).filter q = l.filter q :=
  List.filter_eq_self.mpr (fun _ ha => List.of_mem_filter ha)

theorem alookup_filter_base (B : Language) (k : String) (l : Language) :
    alookup k (l.filter (fun p => (alookup p.1 B).isSome))
      = if (alookup k B).isSome then alookup k l else none := by
  induction l with
  | nil => simp [alookup]
  | cons p rest ih =>
    by_cases hp : p.1 = k
    · subst hp
      by_cases hq : (alookup p.1 B).isSome
      · simp [List.filter_cons, hq, alookup]
      · simp [List.filter_cons, hq, alookup, ih]
    · by_cases hq : (alookup p.1 B).isSome
      · simpa [List.filter_cons, hq, alookup, hp] using ih
      · simpa [List.filter_cons, hq, alookup, hp] using ih

theorem removeOrphans_same (bref r : Nat) (h : Nat → Language) :
    removeOrphans bref r h r = (h r).filter (fun p => (alookup p.1 (h bref)).isSome) :=
  hup_same _ _ _

theorem removeOrphans_other (bref r : Nat) (h : Nat → Language) (n : Nat) (hn : n ≠ r) :
    removeOrphans bref r h n = h n :=
  hup_other _ _ _ _ hn

theorem removeOrphans_bref (bref r : Nat) (h : Nat → Language) :
    removeOrphans bref r h bref = h bref := by
  by_cases hr : bref = r
  · subst hr
    rw [removeOrphans_same, filt_self]
  · exact removeOrphans_other _ _ _ _ hr

theorem phase1_bref (bref : Nat) (base : String) (L : List (String × Nat))
    (h : Nat → Language) : phase1 bref base L h bref = h bref := by
  induction L generalizing h with
  | nil => rfl
  | cons q rest ih =>
    obtain ⟨code, r⟩ := q
    by_cases hc : code = base
    · simp [phase1, hc, ih]
    · simp only [phase1, if_neg hc]
      rw [ih, removeOrphans_bref]

theorem refNB_not_cons {base : String} {r : Nat} {q : String × Nat}
    {rest : List (String × Nat)} (hn : ¬ refNB base r (q :: rest)) :
    ¬ refNB base r rest :=
  fun hx => hn (by obtain ⟨p, hp, h1, h2⟩ := hx; exact ⟨p, List.mem_cons_of_mem _ hp, h1, h2⟩)

theorem refNB_of_cons {base : String} {r : Nat} {code : String} {r' : Nat}
    {rest : List (String × Nat)} (hr : refNB base r ((code, r') :: rest))
    (hc : code ≠ base → r' ≠ r) : refNB base r rest := by
  obtain ⟨p, hp, h1, h2⟩ := hr
  rcases List.mem_cons.mp hp with rfl | hp'
  · exact absurd h2 (hc h1)
  · exact ⟨p, hp', h1, h2⟩

/-- Phase 1 of Sync deletes, from every map that is the map of some
non-base language, exactly the keys missing from the base map; all other
heap cells are untouched. -/
theorem phase1_char (bref : Nat) (base : String) (L : List (String × Nat)) :
    ∀ (h : Nat → Language) (r : Nat),
      (¬ refNB base r L → phase1 bref base L h r = h r) ∧
      (refNB base r L → phase1 bref base L h r
        = (h r).filter (fun p => (alookup p.1 (h bref)).isSome)) := by
  induction L with
  | nil =>
    intro h r
    refine ⟨fun _ => rfl, fun hr => ?_⟩
    obtain ⟨p, hp, -⟩ := hr
    exact absurd hp (List.not_mem_nil p)
  | cons q rest ih =>
    intro h r
    obtain ⟨code, r'⟩ := q
    by_cases hc : code = base
    · constructor
      · intro hn
        simpa [phase1, hc] using (ih h r).1 (refNB_not_cons hn)
      · intro hr
        have hr' : refNB base r rest := refNB_of_cons hr (fun h1 => absurd hc h1)
        simpa [phase1, hc] using (ih h r).2 hr'
    · have hbr : removeOrphans bref r' h bref = h bref := removeOrphans_bref _ _ _
      constructor
      · intro hn
        have hrr : r' ≠ r := fun e => hn ⟨(code, r'), List.mem_cons_self _ _, hc, e⟩
        have hstep := (ih (removeOrphans bref r' h) r).1 (refNB_not_cons hn)
        simp only [phase1, if_neg hc]
        rw [hstep, removeOrphans_other _ _ _ _ (fun e => hrr e.symm)]
      · intro hr
        by_cases hrr : r' = r
        · subst hrr
          by_cases hrest : refNB base r' rest
          · have hstep := (ih (removeOrphans bref r' h) r').2 hrest
            simp only [phase1, if_neg hc]
            rw [hstep]
            simp only [hbr, removeOrphans_same]
            exact filter_filter_self _ _
          · have hstep := (ih (removeOrphans bref r' h) r').1 hrest
            simp only [phase1, if_neg hc]
            rw [hstep, removeOrphans_same]
        · have hrest : refNB base r rest := refNB_of_cons hr (fun _ => hrr)
          have hstep := (ih (removeOrphans bref r' h) r).2 hrest
          simp only [phase1, if_neg hc]
          rw [hstep]
          simp only [hbr]
          rw [removeOrphans_other _ _ _ _ (fun e => hrr e.symm)]

/-- The inner fill loop of phase 2 inserts the base translation for one
key into every map referenced by a non-base code, when the key is
missing; all other heap cells are untouched. -/
theorem fillKey_char (k0 : String) (tr : Translation) (base : String)
    (L : List (String × Nat)) :
    ∀ (h : Nat → Language) (r : Nat),
      (¬ refNB base r L → fillKey k0 tr base L h r = h r) ∧
      (refNB base r L → ∀ k,
        alookup k (fillKey k0 tr base L h r)
          = if k = k0 then some ((alookup k0 (h r)).getD tr) else alookup k (h r)) := by
  induction L with
  | nil =>
    intro h r
    refine ⟨fun _ => rfl, fun hr => ?_⟩
    obtain ⟨p, hp, -⟩ := hr
    exact absurd hp (List.not_mem_nil p)
  | cons q rest ih =>
    intro h r
    obtain ⟨code, r'⟩ := q
    by_cases hc : code = base
    · constructor
      · intro hn
        simpa [fillKey, hc] using (ih h r).1 (refNB_not_cons hn)
      · intro hr
        have hr' : refNB base r rest := refNB_of_cons hr (fun h1 => absurd hc h1)
        intro k
        simpa [fillKey, hc] using (ih h r).2 hr' k
    · by_cases hpres : (alookup k0 (h r')).isSome
      · constructor
        · intro hn
          simpa [fillKey, hc, hpres] using (ih h r).1 (refNB_not_cons hn)
        · intro hr k
          by_cases hrest : refNB base r rest
          · simpa [fillKey, hc, hpres] using (ih h r).2 hrest k
          · have hrr : r' = r := by
              by_contra hrr
              exact hrest (refNB_of_cons hr (fun _ => hrr))
            subst hrr
            have hframe := (ih h r').1 hrest
            simp only [fillKey, if_neg hc, hpres, if_pos]
            rw [hframe]
            by_cases hk : k = k0
            · subst hk
              obtain ⟨v, hv⟩ := Option.isSome_iff_exists.mp hpres
              rw [if_pos rfl, hv]
              rfl
            · rw [if_neg hk]
      · have hnone : alookup k0 (h r') = none :=
          Option.not_isSome_iff_eq_none.mp hpres
        constructor
        · intro hn
          have hrr : r' ≠ r := fun e => hn ⟨(code, r'), List.mem_cons_self _ _, hc, e⟩
          have hstep := (ih (hup h r' (aset k0 tr (h r'))) r).1 (refNB_not_cons hn)
          simp only [fillKey, if_neg hc]
          rw [if_neg hpres, hstep, hup_other _ _ _ _ (fun e => hrr e.symm)]
        · intro hr k
          by_cases hrest : refNB base r rest
          · have hstep := (ih (hup h r' (aset k0 tr (h r'))) r).2 hrest k
            simp only [fillKey, if_neg hc]
            rw [if_neg hpres, hstep]
            by_cases hrr : r' = r
            · subst hrr
              rw [hup_same]
              by_cases hk : k = k0
              · subst hk
                rw [if_pos rfl, if_pos rfl, alookup_aset, if_pos rfl, hnone]
                rfl
              · rw [if_neg hk, if_neg hk, alookup_aset,
                  if_neg (fun e : k0 = k => hk e.symm)]
            · rw [hup_other _ _ _ _ (fun e => hrr e.symm)]
          · have hrr : r' = r := by
              by_contra hrr
              exact hrest (refNB_of_cons hr (fun _ => hrr))
            subst hrr
            have hframe := (ih (hup h r' (aset k0 tr (h r'))) r').1 hrest
            simp only [fillKey, if_neg hc]
            rw [if_neg hpres, hframe, hup_same]
            by_cases hk : k = k0
            · subst hk
              rw [if_pos rfl, alookup_aset, if_pos rfl, hnone]
              rfl
            · rw [if_neg hk, alookup_aset, if_neg (fun e : k0 = k => hk e.symm)]

/-- Phase 2 of Sync fills, into every map that is the map of some
non-base language, the first entry of the iterated key list for each key
the map is missing; all other heap cells are untouched. -/
theorem phase2_char (base : String) (L : List (String × Nat)) :
    ∀ (es : List (String × Translation)) (h : Nat → Language) (r : Nat),
      (¬ refNB base r L → phase2 base L es h r = h r) ∧
      (refNB base r L → ∀ k,
        alookup k (phase2 base L es h r) = ofirst (alookup k (h r)) (alookup k es)) := by
  intro es
  induction es with
  | nil =>
    intro h r
    refine ⟨fun _ => rfl, fun _ k => ?_⟩
    show alookup k (h r) = ofirst (alookup k (h r)) (alookup k ([] : Language))
    cases alookup k (h r) <;> rfl
  | cons e rest ih =>
    intro h r
    obtain ⟨k0, tr⟩ := e
    constructor
    · intro hn
      have hstep := (ih (fillKey k0 tr base L h) r).1 hn
      simp only [phase2]
      rw [hstep, (fillKey_char k0 tr base L h r).1 hn]
    · intro hr k
      have hstep := (ih (fillKey k0 tr base L h) r).2 hr k
      simp only [phase2]
      rw [hstep, (fillKey_char k0 tr base L h r).2 hr k]
      by_cases hk : k = k0
      · subst hk
        simp only [alookup, if_pos rfl]
        cases hv : alookup k (h r) <;> simp [ofirst, hv]
      · simp only [alookup, if_neg (fun e : k0 = k => hk e.symm)]
        rw [if_neg hk]

/-- Net heap effect of Sync with explicit iteration orders: the base map
is read through `hko`; reference membership is read through `h12`. -/
theorem syncGen_char (base : String) (bref : Nat) (lo1 lo2 : List (String × Nat))
    (ko : Language) (h : Nat → Language)
    (h12 : ∀ r, refNB base r lo1 ↔ refNB base r lo2)
    (hko : ∀ k, alookup k ko = alookup k (h bref)) :
    ∀ r,
      (¬ refNB base r lo2 → syncGenHeap base bref lo1 lo2 ko true h r = h r) ∧
      (refNB base r lo2 → ∀ k,
        alookup k (syncGenHeap base bref lo1 lo2 ko true h r)
          = match alookup k (h bref) with
            | none => none
            | some btr => some ((alookup k (h r)).getD btr)) := by
  intro r
  constructor
  · intro hn
    have hn1 : ¬ refNB base r lo1 := fun hx => hn ((h12 r).mp hx)
    show phase2 base lo2 ko (phase1 bref base lo1 h) r = h r
    rw [(phase2_char base lo2 ko (phase1 bref base lo1 h) r).1 hn,
      (phase1_char bref base lo1 h r).1 hn1]
  · intro hr k
    have hr1 : refNB base r lo1 := (h12 r).mpr hr
    show alookup k (phase2 base lo2 ko (phase1 bref base lo1 h) r) = _
    rw [(phase2_char base lo2 ko (phase1 bref base lo1 h) r).2 hr k,
      (phase1_char bref base lo1 h r).2 hr1, hko k, alookup_filter_base]
    cases hB : alookup k (h bref) with
    | none => simp [ofirst]
    | some btr => cases hv : alookup k (h r) <;> simp [ofirst, hB, hv]

theorem sync_heap_eq (t : Translator) (base : String) (bref : Nat)
    (hb : alookup base t.langs = some bref) :
    (t.sync base true).2.heap
      = syncGenHeap base bref t.langs t.langs (phase1 bref base t.langs t.heap bref)
          true t.heap := by
  simp [Translator.sync, hb, syncGenHeap]

theorem sync_langs_eq (t : Translator) (base : String) (bref : Nat)
    (hb : alookup base t.langs = some bref) (orphanRemoval : Bool) :
    (t.sync base orphanRemoval).2.langs = t.langs := by
  simp [Translator.sync, hb]

theorem sync_raw_eq (t : Translator) (base : String) (bref : Nat)
    (hb : alookup base t.langs = some bref) (orphanRemoval : Bool) :
    (t.sync base orphanRemoval).2.raw = t.raw := by
  simp [Translator.sync, hb]

/-- Net heap effect of Sync(base, true) on the stored iteration orders. -/
theorem sync_heap_char (t : Translator) (base : String) (bref : Nat)
    (hb : alookup base t.langs = some bref) :
    ∀ r,
      (¬ refNB base r t.langs → (t.sync base true).2.heap r = t.heap r) ∧
      (refNB base r t.langs → ∀ k,
        alookup k ((t.sync base true).2.heap r)
          = match alookup k (t.heap bref) with
            | none => none
            | some btr => some ((alookup k (t.heap r)).getD btr)) := by
  have hko : ∀ k, alookup k (phase1 bref base t.langs t.heap bref)
      = alookup k (t.heap bref) := by
    intro k
    rw [phase1_bref]
  intro r
  constructor
  · intro hn
    rw [sync_heap_eq t base bref hb]
    exact (syncGen_char base bref t.langs t.langs _ t.heap (fun _ => Iff.rfl) hko r).1 hn
  · intro hr k
    rw [sync_heap_eq t base bref hb]
    exact (syncGen_char base bref t.langs t.langs _ t.heap (fun _ => Iff.rfl) hko r).2 hr k

theorem alookup_eq_some_of_mem_nodup {κ α : Type} [DecidableEq κ] {l : List (κ × α)}
    (hnd : (l.map Prod.fst).Nodup) {k : κ} {v : α} (hm : (k, v) ∈ l) :
    alookup k l = some v := by
  induction l with
  | nil => cases hm
  | cons p rest ih =>
    rcases List.mem_cons.mp hm with h | h
    · rw [← h]
      simp [alookup]
    · have hp : p.1 ≠ k := by
        intro e
        have hk : k ∈ rest.map Prod.fst := List.mem_map.mpr ⟨(k, v), h, rfl⟩
        rw [List.map_cons] at hnd
        exact (List.nodup_cons.mp hnd).1 (e ▸ hk)
      simp only [alookup, if_neg hp]
      exact ih (by rw [List.map_cons] at hnd; exact (List.nodup_cons.mp hnd).2) h

theorem alookup_perm {κ α : Type} [DecidableEq κ] {l l' : List (κ × α)}
    (hp : l.Perm l') (hnd : (l'.map Prod.fst).Nodup) (k : κ) :
    alookup k l = alookup k l' := by
  cases hx : alookup k l' with
  | some v =>
    have hndl : (l.map Prod.fst).Nodup := ((hp.map Prod.fst).nodup_iff).mpr hnd
    exact alookup_eq_some_of_mem_nodup hndl (hp.symm.subset (alookup_mem hx))
  | none =>
    refine (alookup_none_iff _ _).mpr ?_
    intro hmem
    exact (alookup_none_iff _ _).mp hx ((hp.map Prod.fst).subset hmem)

theorem refNB_perm {base : String} {r : Nat} {l l' : List (String × Nat)}
    (hp : l.Perm l') : refNB base r l ↔ refNB base r l' := by
  constructor
  · intro h
    obtain ⟨p, hm, h1, h2⟩ := h
    exact ⟨p, hp.subset hm, h1, h2⟩
  · intro h
    obtain ⟨p, hm, h1, h2⟩ := h
    exact ⟨p, hp.symm.subset hm, h1, h2⟩

/-- C2 counterexample: in the store with en = [A -> hello] and
de = [A -> hallo, B -> x], the key "B" is held by "de" before
Sync("en", true) with template "x", but after the call "de" no longer
holds it at all, so it does not retain its previous template value as the
claim (read over all previously-held keys, not only the shared ones)
requires. -/
theorem C2_counterexample :
    tEnDe.get "B" "de" = "x" ∧
    ¬ (∀ k v, alookup k (tEnDe.heap 1) = some v →
        ∃ v', alookup k (((tEnDe.sync "en" true).2).heap 1) = some v'
          ∧ v'.template = v.template) := by
  constructor
  · rfl
  · intro hall
    obtain ⟨v', hv, -⟩ := hall "B" { key := "B", template := "x" } (by decide)
    have hnone : alookup "B" (((tEnDe.sync "en" true).2).heap 1) = none := by decide
    rw [hnone] at hv
    exact Option.noConfusion hv

/-- C2 (amended): after Sync(base, true), every non-base loaded language
has exactly the same key set as base; every key that a non-base language
already held before the call and that base also holds retains its
previous entry (in particular its template value); and every key newly
inserted into a non-base language carries the base language's Translation
verbatim (same template, same key field). -/
theorem C2_sync_spec (t : Translator) (base : String) (bref : Nat)
    (hb : alookup base t.langs = some bref) :
    ∀ code r, alookup code t.langs = some r → code ≠ base →
      (∀ k, (alookup k (((t.sync base true).2).heap r)).isSome
          ↔ (alookup k (t.heap bref)).isSome) ∧
      (∀ k v, alookup k (t.heap r) = some v → (alookup k (t.heap bref)).isSome →
        alookup k (((t.sync base true).2).heap r) = some v) ∧
      (∀ k btr, alookup k (t.heap r) = none → alookup k (t.heap bref) = some btr →
        alookup k (((t.sync base true).2).heap r) = some btr) := by
  intro code r hcode hne
  have hrnb : refNB base r t.langs := ⟨(code, r), alookup_mem hcode, hne, rfl⟩
  have hchar := (sync_heap_char t base bref hb r).2 hrnb
  refine ⟨?_, ?_, ?_⟩
  · intro k
    rw [hchar k]
    cases hB : alookup k (t.heap bref) <;> simp
  · intro k v hv hB
    obtain ⟨btr, hbtr⟩ := Option.isSome_iff_exists.mp hB
    rw [hchar k, hbtr, hv]
    rfl
  · intro k btr h0 hB
    rw [hchar k, hB, h0]
    rfl

/-- C2 witness: the amended Sync specification applied to the example
store with base "en" at reference 0. -/
theorem C2_witness :
    alookup "en" tEnDe.langs = some 0 ∧
    (∀ code r, alookup code tEnDe.langs = some r → code ≠ "en" →
      (∀ k, (alookup k (((tEnDe.sync "en" true).2).heap r)).isSome
          ↔ (alookup k (tEnDe.heap 0)).isSome) ∧
      (∀ k v, alookup k (tEnDe.heap r) = some v → (alookup k (tEnDe.heap 0)).isSome →
        alookup k (((tEnDe.sync "en" true).2).heap r) = some v) ∧
      (∀ k btr, alookup k (tEnDe.heap r) = none → alookup k (tEnDe.heap 0) = some btr →
        alookup k (((tEnDe.sync "en" true).2).heap r) = some btr)) :=
  ⟨rfl, C2_sync_spec tEnDe "en" 0 rfl⟩

/-- C10: Sync(base, false) is purely additive: the language table and raw
cache are unchanged, no entry of any language map is removed or modified,
and a key that was absent from a map either stays absent or, when the map
belongs to some non-base language and the base holds the key, acquires
exactly the base language's entry. -/
theorem C10_sync_additive (t : Translator) (base : String) (bref : Nat)
    (hb : alookup base t.langs = some bref) :
    (t.sync base false).2.langs = t.langs ∧
    (t.sync base false).2.raw = t.raw ∧
    (∀ r k v, alookup k (t.heap r) = some v →
       alookup k ((t.sync base false).2.heap r) = some v) ∧
    (∀ r k, alookup k (t.heap r) = none →
       alookup k ((t.sync base false).2.heap r) = none ∨
       (refNB base r t.langs ∧
         alookup k ((t.sync base false).2.heap r) = alookup k (t.heap bref) ∧
         (alookup k (t.heap bref)).isSome)) := by
  have hheap : (t.sync base false).2.heap = phase2 base t.langs (t.heap bref) t.heap := by
    simp [Translator.sync, hb]
  refine ⟨sync_langs_eq t base bref hb false, sync_raw_eq t base bref hb false, ?_, ?_⟩
  · intro r k v hv
    rw [hheap]
    by_cases hr : refNB base r t.langs
    · rw [(phase2_char base t.langs (t.heap bref) t.heap r).2 hr k, hv]
      rfl
    · rw [(phase2_char base t.langs (t.heap bref) t.heap r).1 hr, hv]
  · intro r k h0
    rw [hheap]
    by_cases hr : refNB base r t.langs
    · rw [(phase2_char base t.langs (t.heap bref) t.heap r).2 hr k, h0]
      cases hB : alookup k (t.heap bref) with
      | none => exact Or.inl rfl
      | some btr => exact Or.inr ⟨hr, rfl, rfl⟩
    · rw [(phase2_char base t.langs (t.heap bref) t.heap r).1 hr, h0]
      exact Or.inl rfl

/-- C10 witness: the additivity of Sync("en", false) on the example
store. -/
theorem C10_witness :
    alookup "en" tEnDe.langs = some 0 ∧
    ((tEnDe.sync "en" false).2.langs = tEnDe.langs ∧
     (tEnDe.sync "en" false).2.raw = tEnDe.raw ∧
     (∀ r k v, alookup k (tEnDe.heap r) = some v →
        alookup k ((tEnDe.sync "en" false).2.heap r) = some v) ∧
     (∀ r k, alookup k (tEnDe.heap r) = none →
        alookup k ((tEnDe.sync "en" false).2.heap r) = none ∨
        (refNB "en" r tEnDe.langs ∧
          alookup k ((tEnDe.sync "en" false).2.heap r) = alookup k (tEnDe.heap 0) ∧
          (alookup k (tEnDe.heap 0)).isSome))) :=
  ⟨rfl, C10_sync_additive tEnDe "en" 0 rfl⟩

/-- C7: Sync(base, true) is idempotent (the stores after one and after
two consecutive calls agree on the language table, the raw cache and on
every lookup in every heap cell), and its resulting heap does not depend
on the iteration orders over languages and over the base language's keys:
running the two phases with any reorderings of the language list and of
the base entry list yields the same lookups everywhere.  The no-duplicate
hypothesis on the base map's keys reflects that a Go map cannot hold a
key twice. -/
theorem C7_sync_idempotent_order_independent (t : Translator) (base : String)
    (bref : Nat) (hb : alookup base t.langs = some bref)
    (hnd : ((t.heap bref).map Prod.fst).Nodup) :
    (((t.sync base true).2.sync base true).2.langs = (t.sync base true).2.langs ∧
     ((t.sync base true).2.sync base true).2.raw = (t.sync base true).2.raw ∧
     (∀ r k, alookup k ((((t.sync base true).2.sync base true).2).heap r)
          = alookup k ((t.sync base true).2.heap r))) ∧
    (∀ lo1 lo2 ko, lo1.Perm t.langs → lo2.Perm t.langs → ko.Perm (t.heap bref) →
      ∀ r k, alookup k (syncGenHeap base bref lo1 lo2 ko true t.heap r)
           = alookup k ((t.sync base true).2.heap r)) := by
  have hlangs : (t.sync base true).2.langs = t.langs := sync_langs_eq t base bref hb true
  have hb' : alookup base ((t.sync base true).2).langs = some bref := by
    rw [hlangs]; exact hb
  have hchar := sync_heap_char t base bref hb
  have hchar' := sync_heap_char ((t.sync base true).2) base bref hb'
  have hrefNB : ∀ r, refNB base r ((t.sync base true).2).langs ↔ refNB base r t.langs := by
    intro r; rw [hlangs]
  have hBk : ∀ k, alookup k (((t.sync base true).2).heap bref) = alookup k (t.heap bref) := by
    intro k
    by_cases hrb : refNB base bref t.langs
    · rw [(hchar bref).2 hrb k]
      cases hx : alookup k (t.heap bref) with
      | none => rfl
      | some btr => rfl
    · rw [(hchar bref).1 hrb]
  constructor
  · refine ⟨sync_langs_eq _ base bref hb' true, sync_raw_eq _ base bref hb' true, ?_⟩
    intro r k
    by_cases hr : refNB base r t.langs
    · rw [(hchar' r).2 ((hrefNB r).mpr hr) k, (hchar r).2 hr k, hBk k]
      cases hx : alookup k (t.heap bref) with
      | none => rfl
      | some btr => cases hv : alookup k (t.heap r) <;> rfl
    · rw [(hchar' r).1 (fun hx => hr ((hrefNB r).mp hx))]
  · intro lo1 lo2 ko hp1 hp2 hpk r k
    have h12 : ∀ r', refNB base r' lo1 ↔ refNB base r' lo2 :=
      fun r' => (refNB_perm hp1).trans (refNB_perm hp2).symm
    have hko : ∀ k', alookup k' ko = alookup k' (t.heap bref) :=
      fun k' => alookup_perm hpk hnd k'
    have hgen := syncGen_char base bref lo1 lo2 ko t.heap h12 hko r
    by_cases hr : refNB base r t.langs
    · rw [hgen.2 ((refNB_perm hp2).mpr hr) k, (hchar r).2 hr k]
    · rw [hgen.1 (fun hx => hr ((refNB_perm hp2).mp hx)), (hchar r).1 hr]

/-- C7 witness: idempotence and order independence of Sync("en", true) on
the example store, whose base key list has no duplicates. -/
theorem C7_witness :
    alookup "en" tEnDe.langs = some 0 ∧
    ((tEnDe.heap 0).map Prod.fst).Nodup ∧
    ((((tEnDe.sync "en" true).2.sync "en" true).2.langs = (tEnDe.sync "en" true).2.langs ∧
      ((tEnDe.sync "en" true).2.sync "en" true).2.raw = (tEnDe.sync "en" true).2.raw ∧
      (∀ r k, alookup k ((((tEnDe.sync "en" true).2.sync "en" true).2).heap r)
           = alookup k ((tEnDe.sync "en" true).2.heap r))) ∧
     (∀ lo1 lo2 ko, lo1.Perm tEnDe.langs → lo2.Perm tEnDe.langs →
        ko.Perm (tEnDe.heap 0) →
        ∀ r k, alookup k (syncGenHeap "en" 0 lo1 lo2 ko true tEnDe.heap r)
             = alookup k ((tEnDe.sync "en" true).2.heap r))) :=
  ⟨rfl, by decide, C7_sync_idempotent_order_independent tEnDe "en" 0 rfl (by decide)⟩

/-- C4: the claim says that a flat map holding both a key and a strict
dot-path extension of it (a leaf colliding with a container, here "a" and
"a.b") makes Unflatten fail with a surfaced error.  The code has no error
channel in `insert` at all: with "a" inserted first, the type assertion
`c.(map[string]interface{})` panics (modeled by `none`, a crash rather
than a surfaced error); with "a.b" inserted first, the later `target[key]
= value` for "a" silently overwrites the container, losing the "a.b"
entry. -/
theorem C4_collision_not_surfaced :
    unflattenEntries [("a", { key := "a", template := "x" }),
                      ("a.b", { key := "a.b", template := "y" })] JObj.nil = none ∧
    unflattenEntries [("a.b", { key := "a.b", template := "y" }),
                      ("a", { key := "a", template := "x" })] JObj.nil
      = some (JObj.cons "a" (JVal.str "x") JObj.nil) := by
  constructor
  · rfl
  · rfl

/-- C3 counterexample: for the single-entry string-leaf tree
T = ("a.b" -> "x") — allowed by the claim's "arbitrary string keys" —
re-nesting the flattening produces the tree ("a" -> ("b" -> "x")), which
does not hold the key "a.b" that T holds, so the two trees differ under
any reordering of keys. -/
theorem C3_counterexample :
    unflattenEntries (extractKeys "" (JObj.cons "a.b" (JVal.str "x") JObj.nil)) JObj.nil
      = some (JObj.cons "a" (JVal.obj (JObj.cons "b" (JVal.str "x") JObj.nil)) JObj.nil) ∧
    objLookup "a.b"
      (JObj.cons "a" (JVal.obj (JObj.cons "b" (JVal.str "x") JObj.nil)) JObj.nil) = none ∧
    objLookup "a.b" (JObj.cons "a.b" (JVal.str "x") JObj.nil) = some (JVal.str "x") := by
  refine ⟨by decide, by decide, by decide⟩

theorem dataDot (a t : String) : (a ++ "." ++ t).data = a.data ++ '.' :: t.data := by
  have hd : ("." : String).data = ['.'] := rfl
  simp [String.data_append, hd]

theorem eq_of_dotfree_append : ∀ {a b t1 t2 : List Char}, '.' ∉ a → '.' ∉ b →
    a ++ '.' :: t1 = b ++ '.' :: t2 → a = b ∧ t1 = t2
  | [], b, t1, t2, _, hb, h => by
    cases b with
    | nil => simpa using h
    | cons c bs =>
      simp only [List.nil_append, List.cons_append, List.cons.injEq] at h
      exact absurd (List.mem_cons.mpr (Or.inl h.1)) hb
  | c :: as, b, t1, t2, ha, hb, h => by
    cases b with
    | nil =>
      simp only [List.nil_append, List.cons_append, List.cons.injEq] at h
      exact absurd (List.mem_cons.mpr (Or.inl h.1.symm)) ha
    | cons d bs =>
      simp only [List.cons_append, List.cons.injEq] at h
      obtain ⟨rfl, h2⟩ := h
      have has : '.' ∉ as := fun hm => ha (List.mem_cons_of_mem _ hm)
      have hbs : '.' ∉ bs := fun hm => hb (List.mem_cons_of_mem _ hm)
      obtain ⟨he, ht⟩ := eq_of_dotfree_append has hbs h2
      exact ⟨by rw [he], ht⟩

theorem str_data_eq {a b : String} (h : a.data = b.data) : a = b := by
  cases a
  cases b
  exact congrArg String.mk h

theorem dot_concat_inj {a b t1 t2 : String} (ha : '.' ∉ a.data) (hb : '.' ∉ b.data)
    (h : a ++ "." ++ t1 = b ++ "." ++ t2) : a = b ∧ t1 = t2 := by
  have hd : a.data ++ '.' :: t1.data = b.data ++ '.' :: t2.data := by
    rw [← dataDot, ← dataDot, h]
  obtain ⟨h1, h2⟩ := eq_of_dotfree_append ha hb hd
  exact ⟨str_data_eq h1, str_data_eq h2⟩

theorem ne_dot_concat {k b t2 : String} (hk : '.' ∉ k.data) : k ≠ b ++ "." ++ t2 := by
  intro e
  apply hk
  rw [e, dataDot]
  exact List.mem_append.mpr (Or.inr (List.mem_cons_self _ _))

theorem str_append_left_cancel {pre a b : String} (h : pre ++ a = pre ++ b) : a = b := by
  have hd : pre.data ++ a.data = pre.data ++ b.data := by
    rw [← String.data_append, ← String.data_append, h]
  exact str_data_eq (List.append_cancel_left hd)

theorem str_append_ne_empty {pre k : String} (hk : k ≠ "") : pre ++ k ≠ "" := by
  intro e
  apply hk
  have hd : pre.data ++ k.data = [] := by
    rw [← String.data_append, e]
  obtain ⟨-, h2⟩ := List.append_eq_nil.mp hd
  exact str_data_eq h2

theorem goodKey_spec {k : String} (h : goodKey k = true) : k ≠ "" ∧ '.' ∉ k.data := by
  simpa [goodKey] using h

theorem objLookup_app_right : ∀ (k : String) (a b : JObj), objLookup k a = none →
    objLookup k (objApp a b) = objLookup k b
  | _, JObj.nil, _, _ => rfl
  | k, JObj.cons k' v rest, b, ha => by
    by_cases hk : k' = k
    · simp [objLookup, hk] at ha
    · simp only [objLookup, if_neg hk] at ha
      simp only [objApp, objLookup, if_neg hk]
      exact objLookup_app_right k rest b ha

theorem objSet_fresh : ∀ (k : String) (v : JVal) (a : JObj), objLookup k a = none →
    objSet k v a = objApp a (JObj.cons k v JObj.nil)
  | _, _, JObj.nil, _ => rfl
  | k, v, JObj.cons k' v' rest, ha => by
    by_cases hk : k' = k
    · simp [objLookup, hk] at ha
    · simp only [objLookup, if_neg hk] at ha
      simp only [objSet, if_neg hk, objApp]
      rw [objSet_fresh k v rest ha]

theorem objSet_app_last : ∀ (k : String) (v w : JVal) (a : JObj), objLookup k a = none →
    objSet k v (objApp a (JObj.cons k w JObj.nil)) = objApp a (JObj.cons k v JObj.nil)
  | k, v, w, JObj.nil, _ => by simp [objApp, objSet]
  | k, v, w, JObj.cons k' v' rest, ha => by
    by_cases hk : k' = k
    · simp [objLookup, hk] at ha
    · simp only [objLookup, if_neg hk] at ha
      simp only [objApp, objSet, if_neg hk]
      rw [objSet_app_last k v w rest ha]

theorem objApp_assoc : ∀ (a b c : JObj), objApp (objApp a b) c = objApp a (objApp b c)
  | JObj.nil, _, _ => rfl
  | JObj.cons k v rest, b, c => by
    simp only [objApp]
    rw [objApp_assoc rest b c]

theorem insertA_no_dot : ∀ (l : List Char) (hacc : List Char) (value : String)
    (target : JObj), '.' ∉ l →
    insertA l hacc value target = some (objSet (String.mk (hacc ++ l)) (JVal.str value) target)
  | [], hacc, value, target, _ => by simp [insertA]
  | c :: rest, hacc, value, target, hl => by
    have hc : c ≠ '.' := fun e => hl (List.mem_cons.mpr (Or.inl e.symm))
    have ih := insertA_no_dot rest (hacc ++ [c]) value target
      (fun hm => hl (List.mem_cons_of_mem _ hm))
    have hstep : insertA (c :: rest) hacc value target
        = insertA rest (hacc ++ [c]) value target := by
      simp only [insertA, if_neg hc]
    rw [hstep, ih]
    have he : hacc ++ [c] ++ rest = hacc ++ c :: rest := by simp
    rw [he]

theorem insertA_dot : ∀ (a t2 hacc : List Char) (value : String) (target : JObj),
    '.' ∉ a →
    insertA (a ++ '.' :: t2) hacc value target
      = match objLookup (String.mk (hacc ++ a)) target with
        | some (JVal.str _) => none
        | some (JVal.obj child) =>
          (insertA t2 [] value child).map
            (fun c' => objSet (String.mk (hacc ++ a)) (JVal.obj c') target)
        | none =>
          (insertA t2 [] value JObj.nil).map
            (fun c' => objSet (String.mk (hacc ++ a)) (JVal.obj c') target)
  | [], t2, hacc, value, target, _ => by
    simp [insertA]
  | c :: rest, t2, hacc, value, target, ha => by
    have hc : c ≠ '.' := fun e => ha (List.mem_cons.mpr (Or.inl e.symm))
    have ih := insertA_dot rest t2 (hacc ++ [c]) value target
      (fun hm => ha (List.mem_cons_of_mem _ hm))
    have hstep : insertA ((c :: rest) ++ '.' :: t2) hacc value target
        = insertA (rest ++ '.' :: t2) (hacc ++ [c]) value target := by
      show insertA (c :: (rest ++ '.' :: t2)) hacc value target = _
      simp only [insertA, if_neg hc]
    rw [hstep, ih]
    have he : hacc ++ [c] ++ rest = hacc ++ c :: rest := by simp
    simp only [he]

theorem insert_no_dot (key : String) (hk : '.' ∉ key.data) (value : String)
    (target : JObj) :
    insert key value target = some (objSet key (JVal.str value) target) := by
  show insertA key.data [] value target = _
  rw [insertA_no_dot key.data [] value target hk]
  rfl

theorem insert_dot (hd tl : String) (hhd : '.' ∉ hd.data) (value : String)
    (target : JObj) :
    insert (hd ++ "." ++ tl) value target
      = match objLookup hd target with
        | some (JVal.str _) => none
        | some (JVal.obj child) =>
          (insert tl value child).map (fun c' => objSet hd (JVal.obj c') target)
        | none =>
          (insert tl value JObj.nil).map (fun c' => objSet hd (JVal.obj c') target) := by
  show insertA (hd ++ "." ++ tl).data [] value target = _
  rw [dataDot, insertA_dot hd.data tl.data [] value target hhd]
  rfl

theorem unflatPairs_append (a b : List (String × String)) :
    ∀ t : JObj, unflatPairs (a ++ b) t = (unflatPairs a t).bind (fun t' => unflatPairs b t') := by
  induction a with
  | nil => intro t; rfl
  | cons e rest ih =>
    intro t
    obtain ⟨k, v⟩ := e
    simp only [List.cons_append, unflatPairs]
    cases insert k v t with
    | none => rfl
    | some t' => exact ih t'

theorem wf_str {k s : String} {rest : JObj}
    (h : wfEntries (JObj.cons k (JVal.str s) rest) = true) :
    goodKey k = true ∧ k ∉ objKeys rest ∧ wfEntries rest = true := by
  simpa [wfEntries, Bool.and_eq_true, and_assoc] using h

theorem wf_obj {k : String} {sub rest : JObj}
    (h : wfEntries (JObj.cons k (JVal.obj sub) rest) = true) :
    goodKey k = true ∧ k ∉ objKeys rest ∧ sub ≠ JObj.nil ∧
      wfEntries sub = true ∧ wfEntries rest = true := by
  simpa [wfEntries, Bool.and_eq_true, and_assoc] using h

theorem wf_keys_good : ∀ (m : JObj), wfEntries m = true →
    ∀ k0 ∈ objKeys m, goodKey k0 = true
  | JObj.nil, _, k0, hk0 => absurd hk0 (List.not_mem_nil k0)
  | JObj.cons k (JVal.str s) rest, hwf, k0, hk0 => by
    obtain ⟨hg, -, hrest⟩ := wf_str hwf
    rcases List.mem_cons.mp hk0 with rfl | h
    · exact hg
    · exact wf_keys_good rest hrest k0 h
  | JObj.cons k (JVal.obj sub) rest, hwf, k0, hk0 => by
    obtain ⟨hg, -, -, -, hrest⟩ := wf_obj hwf
    rcases List.mem_cons.mp hk0 with rfl | h
    · exact hg
    · exact wf_keys_good rest hrest k0 h

theorem flatSpec_key_shape : ∀ (m : JObj), wfEntries m = true →
    ∀ p ∈ flatSpec m, ∃ k0, k0 ∈ objKeys m ∧
      (p.1 = k0 ∨ ∃ t2 : String, p.1 = k0 ++ "." ++ t2)
  | JObj.nil, _, p, hp => absurd hp (List.not_mem_nil p)
  | JObj.cons k (JVal.str s) rest, hwf, p, hp => by
    obtain ⟨-, -, hrest⟩ := wf_str hwf
    rcases List.mem_cons.mp hp with h | h
    · exact ⟨k, List.mem_cons_self _ _, Or.inl (by rw [h])⟩
    · obtain ⟨k0, hk0, hsh⟩ := flatSpec_key_shape rest hrest p h
      exact ⟨k0, List.mem_cons_of_mem _ hk0, hsh⟩
  | JObj.cons k (JVal.obj sub) rest, hwf, p, hp => by
    obtain ⟨-, -, -, -, hrest⟩ := wf_obj hwf
    rcases List.mem_append.mp hp with h | h
    · obtain ⟨q, hq, rfl⟩ := List.mem_map.mp h
      exact ⟨k, List.mem_cons_self _ _, Or.inr ⟨q.1, rfl⟩⟩
    · obtain ⟨k0, hk0, hsh⟩ := flatSpec_key_shape rest hrest p h
      exact ⟨k0, List.mem_cons_of_mem _ hk0, hsh⟩

theorem nodup_map_dotted (k : String) (hk : '.' ∉ k.data) (l : List (String × String))
    (h : (l.map Prod.fst).Nodup) :
    ((l.map (fun q => (k ++ "." ++ q.1, q.2))).map Prod.fst).Nodup := by
  induction l with
  | nil => simp
  | cons q rest ih =>
    simp only [List.map_cons, List.nodup_cons] at h ⊢
    refine ⟨?_, ih h.2⟩
    intro hmem
    obtain ⟨x, hx, hxe⟩ := List.mem_map.mp hmem
    obtain ⟨x', hx', rfl⟩ := List.mem_map.mp hx
    have hq : x'.1 = q.1 := (dot_concat_inj hk hk hxe).2
    exact h.1 (hq ▸ List.mem_map.mpr ⟨x', hx', rfl⟩)

theorem nodup_map_preAppend (q : String) (l : List (String × String))
    (tf : String × String → Translation) (h : (l.map Prod.fst).Nodup) :
    ((l.map (fun p => (q ++ p.1, tf p))).map Prod.fst).Nodup := by
  induction l with
  | nil => simp
  | cons p rest ih =>
    simp only [List.map_cons, List.nodup_cons] at h ⊢
    refine ⟨?_, ih h.2⟩
    intro hmem
    obtain ⟨x, hx, hxe⟩ := List.mem_map.mp hmem
    obtain ⟨x', hx', rfl⟩ := List.mem_map.mp hx
    exact h.1 ((str_append_left_cancel hxe) ▸ List.mem_map.mpr ⟨x', hx', rfl⟩)

theorem flatSpec_keys_nodup : ∀ (m : JObj), wfEntries m = true →
    ((flatSpec m).map Prod.fst).Nodup
  | JObj.nil, _ => by simp [flatSpec]
  | JObj.cons k (JVal.str s) rest, hwf => by
    obtain ⟨hg, hnin, hrest⟩ := wf_str hwf
    obtain ⟨-, hdot⟩ := goodKey_spec hg
    show (k :: (flatSpec rest).map Prod.fst).Nodup
    refine List.nodup_cons.mpr ⟨?_, flatSpec_keys_nodup rest hrest⟩
    intro hmem
    obtain ⟨p, hp, hpk⟩ := List.mem_map.mp hmem
    obtain ⟨k0, hk0, hsh⟩ := flatSpec_key_shape rest hrest p hp
    rcases hsh with h | ⟨t2, h⟩
    · exact hnin ((h.symm.trans hpk) ▸ hk0)
    · exact absurd (hpk.symm.trans h) (ne_dot_concat hdot)
  | JObj.cons k (JVal.obj sub) rest, hwf => by
    obtain ⟨hg, hnin, hne, hsub, hrest⟩ := wf_obj hwf
    obtain ⟨-, hdot⟩ := goodKey_spec hg
    show ((((flatSpec sub).map (fun q => (k ++ "." ++ q.1, q.2)))
        ++ flatSpec rest).map Prod.fst).Nodup
    rw [List.map_append]
    refine List.Nodup.append (nodup_map_dotted k hdot _ (flatSpec_keys_nodup sub hsub))
      (flatSpec_keys_nodup rest hrest) ?_
    intro a ha hmem2
    obtain ⟨p, hp, rfl⟩ := List.mem_map.mp ha
    obtain ⟨q, hq, rfl⟩ := List.mem_map.mp hp
    obtain ⟨p2, hp2, hpe⟩ := List.mem_map.mp hmem2
    obtain ⟨k0, hk0, hsh⟩ := flatSpec_key_shape rest hrest p2 hp2
    obtain ⟨-, hk0dot⟩ := goodKey_spec (wf_keys_good rest hrest k0 hk0)
    rcases hsh with h | ⟨t2, h⟩
    · exact absurd (h.symm.trans hpe) (ne_dot_concat hk0dot)
    · have hkk : k0 = k := (dot_concat_inj hk0dot hdot (h.symm.trans hpe)).1
      exact hnin (hkk ▸ hk0)

theorem aset_fresh {κ α : Type} [DecidableEq κ] {k0 : κ} {l : List (κ × α)}
    (h : alookup k0 l = none) (v : α) : aset k0 v l = l ++ [(k0, v)] := by
  induction l with
  | nil => rfl
  | cons p rest ih =>
    by_cases hp : p.1 = k0
    · simp [alookup, hp] at h
    · simp only [alookup, if_neg hp] at h
      simp only [aset, if_neg hp, List.cons_append]
      rw [ih h]

theorem alookup_append_right {κ α : Type} [DecidableEq κ] {k : κ} {l1 : List (κ × α)}
    (l2 : List (κ × α)) (h : alookup k l1 = none) :
    alookup k (l1 ++ l2) = alookup k l2 := by
  induction l1 with
  | nil => rfl
  | cons p rest ih =>
    by_cases hp : p.1 = k
    · simp [alookup, hp] at h
    · simp only [alookup, if_neg hp] at h
      simp only [List.cons_append, alookup, if_neg hp]
      exact ih h

theorem mergeT_fresh : ∀ (sub : List (String × Translation))
    (acc : List (String × Translation)), (sub.map Prod.fst).Nodup →
    (∀ p ∈ sub, alookup p.1 acc = none) → mergeT sub acc = acc ++ sub := by
  intro sub
  induction sub with
  | nil => intro acc _ _; simp [mergeT]
  | cons p rest ih =>
    intro acc hnd hfr
    have hhd := (List.nodup_cons.mp hnd).1
    have hnd' := (List.nodup_cons.mp hnd).2
    have hstep : mergeT (p :: rest) acc = mergeT rest (aset p.1 p.2 acc) := rfl
    rw [hstep, aset_fresh (hfr p (List.mem_cons_self _ _)) p.2]
    have hfr' : ∀ q ∈ rest, alookup q.1 (acc ++ [(p.1, p.2)]) = none := by
      intro q hq
      have h1 : alookup q.1 acc = none := hfr q (List.mem_cons_of_mem _ hq)
      have h2 : q.1 ≠ p.1 := fun e => hhd (e ▸ List.mem_map.mpr ⟨q, hq, rfl⟩)
      rw [alookup_append_right _ h1]
      simp [alookup, if_neg (fun e : p.1 = q.1 => h2 e.symm)]
    rw [ih (acc ++ [(p.1, p.2)]) hnd' hfr', List.append_assoc]
    rfl

theorem extract_flatSpec : ∀ (m : JObj), wfEntries m = true →
    ∀ (pre : String) (acc : List (String × Translation)),
      (∀ p ∈ flatSpec m, alookup (pre ++ p.1) acc = none) →
      extractEntries pre m acc
        = acc ++ (flatSpec m).map
            (fun p => (pre ++ p.1, { key := pre ++ p.1, template := p.2 }))
  | JObj.nil, _, pre, acc, _ => by simp [extractEntries, flatSpec]
  | JObj.cons k (JVal.str s) rest, hwf, pre, acc, hfresh => by
    obtain ⟨hg, hnin, hrest⟩ := wf_str hwf
    obtain ⟨-, hdot⟩ := goodKey_spec hg
    have h0 : alookup (pre ++ k) acc = none := hfresh (k, s) (List.mem_cons_self _ _)
    have hstep : extractEntries pre (JObj.cons k (JVal.str s) rest) acc
        = extractEntries pre rest
            (aset (pre ++ k) { key := pre ++ k, template := s } acc) := rfl
    rw [hstep, aset_fresh h0]
    have hfr' : ∀ p ∈ flatSpec rest,
        alookup (pre ++ p.1)
          (acc ++ [(pre ++ k, { key := pre ++ k, template := s })]) = none := by
      intro p hp
      have h1 : alookup (pre ++ p.1) acc = none := hfresh p (List.mem_cons_of_mem _ hp)
      have h2 : p.1 ≠ k := by
        obtain ⟨k0, hk0, hsh⟩ := flatSpec_key_shape rest hrest p hp
        rcases hsh with h | ⟨t2, h⟩
        · exact fun e => hnin ((h.symm.trans e) ▸ hk0)
        · exact fun e => absurd (e.symm.trans h) (ne_dot_concat hdot)
      rw [alookup_append_right _ h1]
      have h3 : pre ++ k ≠ pre ++ p.1 := fun e => h2 (str_append_left_cancel e).symm
      simp [alookup, if_neg h3]
    rw [extract_flatSpec rest hrest pre _ hfr', List.append_assoc]
    rfl
  | JObj.cons k (JVal.obj sub) rest, hwf, pre, acc, hfresh => by
    obtain ⟨hg, hnin, hne, hsub, hrest⟩ := wf_obj hwf
    obtain ⟨hkne, hdot⟩ := goodKey_spec hg
    have hstep : extractEntries pre (JObj.cons k (JVal.obj sub) rest) acc
        = extractEntries pre rest
            (mergeT (extractEntries (dotPre (pre ++ k)) sub []) acc) := rfl
    have hdp : dotPre (pre ++ k) = pre ++ k ++ "." := by
      rw [dotPre, if_neg (str_append_ne_empty hkne)]
    have hinner : extractEntries (dotPre (pre ++ k)) sub []
        = (flatSpec sub).map
            (fun p => (pre ++ k ++ "." ++ p.1,
              { key := pre ++ k ++ "." ++ p.1, template := p.2 })) := by
      rw [hdp, extract_flatSpec sub hsub (pre ++ k ++ ".") [] (fun p _ => rfl)]
      simp
    have hassoc : ∀ s0 : String, pre ++ k ++ "." ++ s0 = pre ++ (k ++ "." ++ s0) := by
      intro s0
      simp [String.append_assoc]
    have hndinner : (((flatSpec sub).map
        (fun p => (pre ++ k ++ "." ++ p.1,
          ({ key := pre ++ k ++ "." ++ p.1, template := p.2 } : Translation)))).map
            Prod.fst).Nodup :=
      nodup_map_preAppend (pre ++ k ++ ".") (flatSpec sub) _ (flatSpec_keys_nodup sub hsub)
    have hfrinner : ∀ p' ∈ (flatSpec sub).map
        (fun p => (pre ++ k ++ "." ++ p.1,
          ({ key := pre ++ k ++ "." ++ p.1, template := p.2 } : Translation))),
        alookup p'.1 acc = none := by
      intro p' hp'
      obtain ⟨q, hq, rfl⟩ := List.mem_map.mp hp'
      have hmem : (k ++ "." ++ q.1, q.2) ∈ flatSpec (JObj.cons k (JVal.obj sub) rest) :=
        List.mem_append.mpr (Or.inl (List.mem_map.mpr ⟨q, hq, rfl⟩))
      have := hfresh _ hmem
      simpa [hassoc q.1] using this
    rw [hstep, hinner, mergeT_fresh _ acc hndinner hfrinner]
    have hfr'' : ∀ p ∈ flatSpec rest,
        alookup (pre ++ p.1)
          (acc ++ (flatSpec sub).map
            (fun p => (pre ++ k ++ "." ++ p.1,
              ({ key := pre ++ k ++ "." ++ p.1, template := p.2 } : Translation)))) = none := by
      intro p hp
      have h1 : alookup (pre ++ p.1) acc = none :=
        hfresh p (List.mem_append.mpr (Or.inr hp))
      rw [alookup_append_right _ h1]
      refine (alookup_none_iff _ _).mpr ?_
      intro hmem
      obtain ⟨x, hx, hxe⟩ := List.mem_map.mp hmem
      obtain ⟨q, hq, rfl⟩ := List.mem_map.mp hx
      have hcanc : p.1 = k ++ "." ++ q.1 := by
        have hpre2 : pre ++ p.1 = pre ++ (k ++ "." ++ q.1) := by
          rw [← hassoc q.1]
          simpa using hxe.symm
        exact str_append_left_cancel hpre2
      obtain ⟨k0, hk0, hsh⟩ := flatSpec_key_shape rest hrest p hp
      obtain ⟨-, hk0dot⟩ := goodKey_spec (wf_keys_good rest hrest k0 hk0)
      rcases hsh with h | ⟨t2, h⟩
      · exact absurd (h.symm.trans hcanc) (ne_dot_concat hk0dot)
      · have hkk : k0 = k := (dot_concat_inj hk0dot hdot (h.symm.trans hcanc)).1
        exact hnin (hkk ▸ hk0)
    rw [extract_flatSpec rest hrest pre _ hfr'']
    have hblock : ((flatSpec sub).map (fun q => (k ++ "." ++ q.1, q.2))).map
          (fun p => (pre ++ p.1, ({ key := pre ++ p.1, template := p.2 } : Translation)))
        = (flatSpec sub).map
            (fun p => (pre ++ k ++ "." ++ p.1,
              ({ key := pre ++ k ++ "." ++ p.1, template := p.2 } : Translation))) := by
      rw [List.map_map]
      refine List.map_congr_left ?_
      intro q hq
      simp [Function.comp, hassoc q.1]
    have hflat : (flatSpec (JObj.cons k (JVal.obj sub) rest)).map
          (fun p => (pre ++ p.1, ({ key := pre ++ p.1, template := p.2 } : Translation)))
        = (flatSpec sub).map
            (fun p => (pre ++ k ++ "." ++ p.1,
              ({ key := pre ++ k ++ "." ++ p.1, template := p.2 } : Translation)))
          ++ (flatSpec rest).map
            (fun p => (pre ++ p.1, ({ key := pre ++ p.1, template := p.2 } : Translation))) := by
      show (((flatSpec sub).map (fun q => (k ++ "." ++ q.1, q.2))) ++ flatSpec rest).map
          (fun p => (pre ++ p.1, ({ key := pre ++ p.1, template := p.2 } : Translation))) = _
      rw [List.map_append, hblock]
    rw [hflat, List.append_assoc]

theorem flatSpec_ne_nil : ∀ (m : JObj), wfEntries m = true → m ≠ JObj.nil →
    flatSpec m ≠ []
  | JObj.nil, _, hm => absurd rfl hm
  | JObj.cons k (JVal.str s) rest, _, _ => by simp [flatSpec]
  | JObj.cons k (JVal.obj sub) rest, hwf, _ => by
    obtain ⟨-, -, hne, hsub, -⟩ := wf_obj hwf
    intro hcon
    have h2 := List.append_eq_nil.mp hcon
    exact flatSpec_ne_nil sub hsub hne (List.map_eq_nil_iff.mp h2.1)

theorem objApp_nil_right : ∀ a : JObj, objApp a JObj.nil = a
  | JObj.nil => rfl
  | JObj.cons k v rest => by
    simp only [objApp]
    rw [objApp_nil_right rest]

theorem unflat_block (k : String) (hk : '.' ∉ k.data) :
    ∀ (es : List (String × String)) (t0 c : JObj), objLookup k t0 = none →
      unflatPairs (es.map (fun p => (k ++ "." ++ p.1, p.2)))
          (objApp t0 (JObj.cons k (JVal.obj c) JObj.nil))
        = (unflatPairs es c).map
            (fun c' => objApp t0 (JObj.cons k (JVal.obj c') JObj.nil))
  | [], _, _, _ => rfl
  | e :: rest, t0, c, h0 => by
    obtain ⟨ek, ev⟩ := e
    have hlook : objLookup k (objApp t0 (JObj.cons k (JVal.obj c) JObj.nil))
        = some (JVal.obj c) := by
      rw [objLookup_app_right k t0 _ h0]
      simp [objLookup]
    have hstep : unflatPairs (((ek, ev) :: rest).map (fun p => (k ++ "." ++ p.1, p.2)))
        (objApp t0 (JObj.cons k (JVal.obj c) JObj.nil))
        = match insert (k ++ "." ++ ek) ev (objApp t0 (JObj.cons k (JVal.obj c) JObj.nil)) with
          | some t' => unflatPairs (rest.map (fun p => (k ++ "." ++ p.1, p.2))) t'
          | none => none := rfl
    have hinseq : insert (k ++ "." ++ ek) ev (objApp t0 (JObj.cons k (JVal.obj c) JObj.nil))
        = (insert ek ev c).map
            (fun c' => objSet k (JVal.obj c')
              (objApp t0 (JObj.cons k (JVal.obj c) JObj.nil))) := by
      rw [insert_dot k ek hk ev _, hlook]
    rw [hstep, hinseq]
    cases hins : insert ek ev c with
    | none =>
      have hRHS : unflatPairs ((ek, ev) :: rest) c = none := by
        simp [unflatPairs, hins]
      rw [hRHS]
      rfl
    | some c1 =>
      have hRHS : unflatPairs ((ek, ev) :: rest) c = unflatPairs rest c1 := by
        simp [unflatPairs, hins]
      rw [hRHS]
      show unflatPairs (rest.map (fun p => (k ++ "." ++ p.1, p.2)))
          (objSet k (JVal.obj c1) (objApp t0 (JObj.cons k (JVal.obj c) JObj.nil)))
        = (unflatPairs rest c1).map
            (fun c' => objApp t0 (JObj.cons k (JVal.obj c') JObj.nil))
      rw [objSet_app_last k (JVal.obj c1) (JVal.obj c) t0 h0]
      exact unflat_block k hk rest t0 c1 h0

theorem unflat_block_new (k : String) (hk : '.' ∉ k.data) (e : String × String)
    (rest : List (String × String)) (t0 : JObj) (h0 : objLookup k t0 = none) :
    unflatPairs ((e :: rest).map (fun p => (k ++ "." ++ p.1, p.2))) t0
      = (unflatPairs (e :: rest) JObj.nil).map
          (fun c' => objApp t0 (JObj.cons k (JVal.obj c') JObj.nil)) := by
  obtain ⟨ek, ev⟩ := e
  have hstep : unflatPairs (((ek, ev) :: rest).map (fun p => (k ++ "." ++ p.1, p.2))) t0
      = match insert (k ++ "." ++ ek) ev t0 with
        | some t' => unflatPairs (rest.map (fun p => (k ++ "." ++ p.1, p.2))) t'
        | none => none := rfl
  have hinseq : insert (k ++ "." ++ ek) ev t0
      = (insert ek ev JObj.nil).map (fun c' => objSet k (JVal.obj c') t0) := by
    rw [insert_dot k ek hk ev t0, h0]
  rw [hstep, hinseq]
  cases hins : insert ek ev JObj.nil with
  | none =>
    have hRHS : unflatPairs ((ek, ev) :: rest) JObj.nil = none := by
      simp [unflatPairs, hins]
    rw [hRHS]
    rfl
  | some c1 =>
    have hRHS : unflatPairs ((ek, ev) :: rest) JObj.nil = unflatPairs rest c1 := by
      simp [unflatPairs, hins]
    rw [hRHS]
    show unflatPairs (rest.map (fun p => (k ++ "." ++ p.1, p.2)))
        (objSet k (JVal.obj c1) t0)
      = (unflatPairs rest c1).map
          (fun c' => objApp t0 (JObj.cons k (JVal.obj c') JObj.nil))
    rw [objSet_fresh k (JVal.obj c1) t0 h0]
    exact unflat_block k hk rest t0 c1 h0

theorem unflat_flatSpec : ∀ (m : JObj), wfEntries m = true →
    ∀ t0 : JObj, (∀ k0 ∈ objKeys m, objLookup k0 t0 = none) →
      unflatPairs (flatSpec m) t0 = some (objApp t0 m)
  | JObj.nil, _, t0, _ => by
    show some t0 = some (objApp t0 JObj.nil)
    rw [objApp_nil_right]
  | JObj.cons k (JVal.str s) rest, hwf, t0, hfresh => by
    obtain ⟨hg, hnin, hrest⟩ := wf_str hwf
    obtain ⟨-, hdot⟩ := goodKey_spec hg
    have h0 : objLookup k t0 = none := hfresh k (List.mem_cons_self _ _)
    have hstep : unflatPairs (flatSpec (JObj.cons k (JVal.str s) rest)) t0
        = match insert k s t0 with
          | some t' => unflatPairs (flatSpec rest) t'
          | none => none := rfl
    rw [hstep, insert_no_dot k hdot s t0]
    show unflatPairs (flatSpec rest) (objSet k (JVal.str s) t0)
      = some (objApp t0 (JObj.cons k (JVal.str s) rest))
    rw [objSet_fresh k (JVal.str s) t0 h0]
    have hfr' : ∀ k0 ∈ objKeys rest,
        objLookup k0 (objApp t0 (JObj.cons k (JVal.str s) JObj.nil)) = none := by
      intro k0 hk0
      have h1 : objLookup k0 t0 = none := hfresh k0 (List.mem_cons_of_mem _ hk0)
      have h2 : k ≠ k0 := fun e => hnin (e ▸ hk0)
      rw [objLookup_app_right k0 t0 _ h1]
      simp [objLookup, if_neg h2]
    rw [unflat_flatSpec rest hrest _ hfr', objApp_assoc]
    rfl
  | JObj.cons k (JVal.obj sub) rest, hwf, t0, hfresh => by
    obtain ⟨hg, hnin, hne, hsub, hrest⟩ := wf_obj hwf
    obtain ⟨-, hdot⟩ := goodKey_spec hg
    have h0 : objLookup k t0 = none := hfresh k (List.mem_cons_self _ _)
    have happ : unflatPairs (flatSpec (JObj.cons k (JVal.obj sub) rest)) t0
        = (unflatPairs ((flatSpec sub).map (fun p => (k ++ "." ++ p.1, p.2))) t0).bind
            (fun t' => unflatPairs (flatSpec rest) t') :=
      unflatPairs_append _ _ t0
    rw [happ]
    cases hfs : flatSpec sub with
    | nil => exact absurd hfs (flatSpec_ne_nil sub hsub hne)
    | cons e es' =>
      rw [unflat_block_new k hdot e es' t0 h0, ← hfs,
        unflat_flatSpec sub hsub JObj.nil (fun k0 _ => rfl)]
      show unflatPairs (flatSpec rest) (objApp t0 (JObj.cons k (JVal.obj sub) JObj.nil))
        = some (objApp t0 (JObj.cons k (JVal.obj sub) rest))
      have hfr' : ∀ k0 ∈ objKeys rest,
          objLookup k0 (objApp t0 (JObj.cons k (JVal.obj sub) JObj.nil)) = none := by
        intro k0 hk0
        have h1 : objLookup k0 t0 = none := hfresh k0 (List.mem_cons_of_mem _ hk0)
        have h2 : k ≠ k0 := fun e => hnin (e ▸ hk0)
        rw [objLookup_app_right k0 t0 _ h1]
        simp [objLookup, if_neg h2]
      rw [unflat_flatSpec rest hrest _ hfr', objApp_assoc]
      rfl

/-- C3 (amended): for every nested string-leaf tree whose keys at every
level are non-empty, dot-free and duplicate-free, and whose nested
objects are all non-empty, re-nesting the flattening restores the tree
exactly: unflattening (the syncRaw insert loop) applied to
extractKeys("", T) succeeds and returns T itself. -/
theorem C3_round_trip (m : JObj) (hwf : wfEntries m = true) :
    unflattenEntries (extractKeys "" m) JObj.nil = some m := by
  have hex : extractKeys "" m
      = (flatSpec m).map
          (fun p => (p.1, ({ key := p.1, template := p.2 } : Translation))) := by
    show extractEntries (dotPre "") m [] = _
    have hdp : dotPre "" = "" := rfl
    rw [hdp, extract_flatSpec m hwf "" [] (fun p _ => rfl)]
    simp [String.empty_append]
  have hproj : ∀ l : List (String × String),
      ((l.map (fun p => (p.1, ({ key := p.1, template := p.2 } : Translation)))).map
        (fun e => (e.1, e.2.template))) = l := by
    intro l
    induction l with
    | nil => rfl
    | cons p rest ih => rw [List.map_cons, List.map_cons, ih]
  show unflatPairs ((extractKeys "" m).map (fun e => (e.1, e.2.template))) JObj.nil = some m
  rw [hex, hproj (flatSpec m), unflat_flatSpec m hwf JObj.nil (fun k0 _ => rfl)]
  rfl

/-- C3 witness: the amended round-trip law evaluated on a concrete
well-formed tree with a nested object and a top-level leaf. -/
theorem C3_witness :
    wfEntries mEx = true ∧
    unflattenEntries (extractKeys "" mEx) JObj.nil = some mEx :=
  ⟨by decide, C3_round_trip mEx (by decide)⟩

end TrApp
